import Mathlib

/-!
# Verification of the helheim inclination-correction library (`incl.py`)

This file gives a shallow embedding in Lean 4 of the numeric core of
`incl.py`, which post-processes LIDAR point clouds against inclinometer
(roll/pitch) time series, and proves the stated properties of that code.

Modelling conventions:
* Python/numpy floating-point values are modelled as exact numbers: `ℚ` for
  the purely order/arithmetic operations (inclination file handling, mean
  removal, text formatting) and `ℝ` for the operations that involve
  transcendental functions (Blackman window, rotations, azimuths).
* `NaN` time stamps in inclination files are modelled by an explicit flag on
  the row; every IEEE comparison against `NaN` is `False`, which the
  embedding reproduces.
* Fallible numpy operations (out-of-range indexing, shape mismatches) are
  modelled with `Option`: `none` is the raised exception.
* The point-cloud transforms mutate and allocate numpy arrays; they are
  embedded as functions over an explicit array store (`Store`) so that
  statements about (non-)mutation of the input arrays are expressible.
-/

/-! ## Inclination file reading (`get_incl`) -/

/-- One parsed data row of an inclination text file: `(time, roll, pitch)`.
`timeIsNaN` records whether the time field was the IEEE `NaN` value (in which
case the numeric `time` field is meaningless). -/
structure InclRow where
  time : ℚ
  timeIsNaN : Bool
  roll : ℚ
  pitch : ℚ
deriving DecidableEq

/-- `incl[incl[:,0] > 0]` : an IEEE comparison with `NaN` is `False`, so a
`NaN` time never passes this filter. -/
def rowPos (r : InclRow) : Bool := !r.timeIsNaN && decide (0 < r.time)

/-- `incl[~np.isnan(incl[:,0])]`. -/
def rowDefined (r : InclRow) : Bool := !r.timeIsNaN

/-- Insert a value into an ascending duplicate-free list, keeping it
ascending and duplicate-free. -/
def insertSortedDedup (t : ℚ) : List ℚ → List ℚ
  | [] => [t]
  | x :: xs =>
    if t < x then t :: x :: xs
    else if t = x then x :: xs
    else x :: insertSortedDedup t xs

/-- The ascending list of the distinct values of `l`; this is exactly the
(sorted, duplicate-free) value array returned by `np.unique`. -/
def uniqueSorted (l : List ℚ) : List ℚ := l.foldr insertSortedDedup []

/-- `get_incl` (file reading aside): filter out rows with non-positive time,
filter out rows with `NaN` time, then keep, for each distinct remaining time
in ascending order, the first row carrying it (`np.unique` with
`return_index=True` returns the ascending unique values together with the
index of the first occurrence of each, and `incl[idx]` selects those rows). -/
def get_incl (rows : List InclRow) : List InclRow :=
  let f := (rows.filter rowPos).filter rowDefined
  (uniqueSorted (f.map InclRow.time)).filterMap
    (fun t => f.find? (fun r => decide (r.time = t)))

/-! ## Mean bias removal (`remove_reg_mean_incl`) -/

/-- `np.mean` over exact rationals. -/
def npMean (l : List ℚ) : ℚ := l.sum / l.length

/-- `remove_reg_mean_incl`: subtract the mean of the registration roll from
every survey roll sample, and likewise for pitch. -/
def remove_reg_mean_incl (roll pitch reg_roll reg_pitch : List ℚ) :
    List ℚ × List ℚ :=
  (roll.map (fun v => v - npMean reg_roll),
   pitch.map (fun v => v - npMean reg_pitch))

/-! ## Inclination file writing (`save_incl`) -/

/-- The C format `"%0.4f"` applied to an exact rational: fixed-point with
four fractional digits, rounding to the nearest representable value
(`n` computes `⌊q·10000 + 1/2⌋` by integer arithmetic). -/
def fmt4 (q : ℚ) : String :=
  let n : ℤ := Int.fdiv (2 * q.num * 10000 + q.den) (2 * (q.den : ℤ))
  let sign := if n < 0 then "-" else ""
  let m := n.natAbs
  let fs := toString (m % 10000)
  sign ++ toString (m / 10000) ++ "." ++
    String.mk (List.replicate (4 - fs.length) '0') ++ fs

/-- `save_incl`: the file written by `np.savetxt(outfilename,
np.column_stack((t, roll, pitch)), "%0.4f", delimiter=',',
header="Time,Roll,Pitch")`, returned as `(file name, lines)`.
`np.savetxt` prepends its default `comments` prefix `"# "` to the header
line.  `np.column_stack` raises on arrays of unequal length (`none`). -/
def save_incl (t roll pitch : List ℚ) (data_dir root ext : String) :
    Option (String × List String) :=
  if t.length = roll.length ∧ roll.length = pitch.length then
    some (data_dir ++ "/" ++ root ++ ext,
      "# Time,Roll,Pitch" ::
        (t.zip (roll.zip pitch)).map
          (fun p => fmt4 p.1 ++ "," ++ fmt4 p.2.1 ++ "," ++ fmt4 p.2.2))
  else none

/-! ## Lemmas about the `np.unique` model -/

theorem mem_insertSortedDedup {a t : ℚ} {l : List ℚ} :
    a ∈ insertSortedDedup t l ↔ a = t ∨ a ∈ l := by
  induction l with
  | nil => simp [insertSortedDedup]
  | cons x xs ih =>
    by_cases h1 : t < x
    · simp only [insertSortedDedup, if_pos h1, List.mem_cons]
    · by_cases h2 : t = x
      · subst h2
        simp only [insertSortedDedup, if_neg h1, List.mem_cons]
        simp
      · simp only [insertSortedDedup, if_neg h1, if_neg h2, List.mem_cons, ih]
        tauto

theorem pairwise_insertSortedDedup {t : ℚ} {l : List ℚ}
    (hl : l.Pairwise (· < ·)) : (insertSortedDedup t l).Pairwise (· < ·) := by
  induction l with
  | nil => simp [insertSortedDedup]
  | cons x xs ih =>
    rcases List.pairwise_cons.mp hl with ⟨hx, hxs⟩
    by_cases h1 : t < x
    · simp only [insertSortedDedup, if_pos h1]
      refine List.pairwise_cons.mpr ⟨?_, hl⟩
      intro b hb
      rcases List.mem_cons.mp hb with rfl | hb
      · exact h1
      · exact lt_trans h1 (hx b hb)
    · by_cases h2 : t = x
      · simpa only [insertSortedDedup, if_neg h1, if_pos h2] using hl
      · have hxt : x < t := lt_of_le_of_ne (not_lt.mp h1) (Ne.symm h2)
        simp only [insertSortedDedup, if_neg h1, if_neg h2]
        refine List.pairwise_cons.mpr ⟨?_, ih hxs⟩
        intro b hb
        rcases mem_insertSortedDedup.mp hb with rfl | hb
        · exact hxt
        · exact hx b hb

theorem uniqueSorted_pairwise (l : List ℚ) :
    (uniqueSorted l).Pairwise (· < ·) := by
  induction l with
  | nil => simp [uniqueSorted]
  | cons x xs ih => exact pairwise_insertSortedDedup ih

theorem mem_uniqueSorted {a : ℚ} {l : List ℚ} :
    a ∈ uniqueSorted l ↔ a ∈ l := by
  induction l with
  | nil => simp [uniqueSorted]
  | cons x xs ih =>
    show a ∈ insertSortedDedup x (uniqueSorted xs) ↔ _
    rw [mem_insertSortedDedup, ih]
    simp [List.mem_cons]

/-! ## Generic list lemmas used to analyse `get_incl` -/

theorem find?_filter_eq {α : Type} (l : List α) (p q : α → Bool) :
    (l.filter p).find? q = l.find? (fun a => p a && q a) := by
  induction l with
  | nil => rfl
  | cons x xs ih =>
    by_cases hp : p x
    · by_cases hq : q x
      · simp [List.filter_cons, hp, hq]
      · simp [List.filter_cons, hp, hq, ih]
    · simp [List.filter_cons, hp, ih]

theorem find?_congr_pred {α : Type} (l : List α) (p q : α → Bool)
    (h : ∀ a, p a = q a) : l.find? p = l.find? q := by
  rw [show p = q from funext h]

theorem map_time_filterMap_find? (f : List InclRow) :
    ∀ l : List ℚ, (∀ t ∈ l, ∃ r ∈ f, r.time = t) →
      ((l.filterMap (fun t => f.find? (fun r => decide (r.time = t)))).map
        InclRow.time) = l := by
  intro l
  induction l with
  | nil => intro _; rfl
  | cons t ts ih =>
    intro h
    obtain ⟨r, hrf, hrt⟩ := h t (List.mem_cons_self t ts)
    have hsome : (f.find? (fun r => decide (r.time = t))).isSome := by
      rw [List.find?_isSome]
      exact ⟨r, hrf, by simp [hrt]⟩
    obtain ⟨r0, hr0⟩ := Option.isSome_iff_exists.mp hsome
    have hr0t : r0.time = t := by simpa using List.find?_some hr0
    simp only [List.filterMap_cons, hr0, List.map_cons, hr0t]
    rw [ih (fun u hu => h u (List.mem_cons_of_mem _ hu))]

/-- C2: for every inclination file (including files with duplicate
timestamps), `get_incl` returns a series whose timestamps are strictly
increasing, with exactly one row per unique positive, defined input
timestamp, and for each retained timestamp the roll/pitch values come from
the first occurrence of that timestamp in the file. -/
theorem get_incl_strict_dedup_first (rows : List InclRow) :
    ((get_incl rows).map InclRow.time).Pairwise (· < ·)
    ∧ (∀ t : ℚ, (∃ r ∈ get_incl rows, r.time = t) ↔
        ∃ r ∈ rows, r.timeIsNaN = false ∧ 0 < r.time ∧ r.time = t)
    ∧ ∀ r ∈ get_incl rows,
        rows.find? (fun r2 => !r2.timeIsNaN && decide (r2.time = r.time)) =
          some r := by
  classical
  set F := (rows.filter rowPos).filter rowDefined with hF
  have hgi : get_incl rows =
      (uniqueSorted (F.map InclRow.time)).filterMap
        (fun t => F.find? (fun r => decide (r.time = t))) := rfl
  have hmemf : ∀ r : InclRow,
      r ∈ F ↔ r ∈ rows ∧ r.timeIsNaN = false ∧ 0 < r.time := by
    intro r
    rw [hF]
    simp only [List.mem_filter, rowPos, rowDefined, Bool.and_eq_true,
      Bool.not_eq_true', decide_eq_true_eq]
    tauto
  have hcover : ∀ t ∈ uniqueSorted (F.map InclRow.time), ∃ r ∈ F, r.time = t := by
    intro t ht
    obtain ⟨r, hr, hrt⟩ := List.mem_map.mp (mem_uniqueSorted.mp ht)
    exact ⟨r, hr, hrt⟩
  have hmap : (get_incl rows).map InclRow.time =
      uniqueSorted (F.map InclRow.time) := by
    rw [hgi]
    exact map_time_filterMap_find? F _ hcover
  refine ⟨?_, ?_, ?_⟩
  · rw [hmap]
    exact uniqueSorted_pairwise _
  · intro t
    constructor
    · rintro ⟨r, hr, rfl⟩
      have hrF : r ∈ F := by
        rw [hgi] at hr
        obtain ⟨u, hu, hfind⟩ := List.mem_filterMap.mp hr
        exact List.mem_of_find?_eq_some hfind
      have h := (hmemf r).mp hrF
      exact ⟨r, h.1, h.2.1, h.2.2, rfl⟩
    · rintro ⟨r, hr, hnan, hpos, rfl⟩
      have hrF : r ∈ F := (hmemf r).mpr ⟨hr, hnan, hpos⟩
      have htm : r.time ∈ (get_incl rows).map InclRow.time := by
        rw [hmap]
        exact mem_uniqueSorted.mpr (List.mem_map_of_mem _ hrF)
      obtain ⟨r2, hr2, hrt2⟩ := List.mem_map.mp htm
      exact ⟨r2, hr2, hrt2⟩
  · intro r hr
    rw [hgi] at hr
    obtain ⟨t, htu, hfind⟩ := List.mem_filterMap.mp hr
    have hrt : r.time = t := by simpa using List.find?_some hfind
    have hrF : r ∈ F := List.mem_of_find?_eq_some hfind
    have hside := (hmemf r).mp hrF
    subst hrt
    rw [hF, find?_filter_eq, find?_filter_eq] at hfind
    rw [← hfind]
    apply find?_congr_pred
    intro a
    by_cases hna : a.timeIsNaN
    · simp [rowPos, rowDefined, hna]
    · by_cases hta : a.time = r.time
      · simp [rowPos, rowDefined, hna, hta, hside.2.2]
      · simp [rowPos, rowDefined, hna, hta]

/-- Witness for C2 at a concrete file containing a duplicate timestamp, a
non-positive timestamp and a `NaN` timestamp. -/
theorem get_incl_strict_dedup_first_witness :
    (⟨1, false, 30, 40⟩ : InclRow) ∈ get_incl
        ([⟨2, false, 10, 20⟩, ⟨1, false, 30, 40⟩, ⟨2, false, 50, 60⟩,
          ⟨-1, false, 0, 0⟩, ⟨3, true, 7, 8⟩] : List InclRow)
    ∧ ([⟨2, false, 10, 20⟩, ⟨1, false, 30, 40⟩, ⟨2, false, 50, 60⟩,
          ⟨-1, false, 0, 0⟩, ⟨3, true, 7, 8⟩] : List InclRow).find?
        (fun r2 => !r2.timeIsNaN && decide (r2.time = (1 : ℚ))) =
      some ⟨1, false, 30, 40⟩ :=
  ⟨by decide,
   (get_incl_strict_dedup_first
      ([⟨2, false, 10, 20⟩, ⟨1, false, 30, 40⟩, ⟨2, false, 50, 60⟩,
        ⟨-1, false, 0, 0⟩, ⟨3, true, 7, 8⟩] : List InclRow)).2.2
      (⟨1, false, 30, 40⟩ : InclRow) (by decide)⟩

/-! ## Indexing helper lemmas -/

theorem get?_eq_some_getD {α : Type} (l : List α) (d : α) {i : ℕ}
    (h : i < l.length) : l.get? i = some (l.getD i d) := by
  rw [List.getD_eq_get?]
  cases hg : l.get? i with
  | none => exact absurd (List.get?_eq_none.mp hg) (Nat.not_le.mpr h)
  | some v => rfl

theorem get?_zip_eq {α β : Type} : ∀ (l1 : List α) (l2 : List β) (i : ℕ),
    (l1.zip l2).get? i =
      (l1.get? i).bind (fun a => (l2.get? i).map (fun b => (a, b)))
  | [], _, _ => by simp
  | _ :: _, [], _ => by simp
  | a :: l1, b :: l2, 0 => rfl
  | a :: l1, b :: l2, (i + 1) => by
    simp only [List.zip_cons_cons, List.get?_cons_succ]
    exact get?_zip_eq l1 l2 i

theorem getD_map_of_lt {α β : Type} (f : α → β) (l : List α) (d : α) {i : ℕ}
    (h : i < l.length) : (l.map f).getD i (f d) = f (l.getD i d) := by
  rw [List.getD_eq_get?, List.get?_map, get?_eq_some_getD l d h]
  rfl

/-- C3: `remove_reg_mean_incl` subtracts the registration-roll mean from each
survey roll sample and the registration-pitch mean from each survey pitch
sample, preserves the series lengths, and is deterministic: identical inputs
give identical outputs. -/
theorem remove_reg_mean_incl_spec (roll pitch reg_roll reg_pitch : List ℚ) :
    ((remove_reg_mean_incl roll pitch reg_roll reg_pitch).1.length = roll.length
      ∧ (remove_reg_mean_incl roll pitch reg_roll reg_pitch).2.length =
          pitch.length)
    ∧ (∀ i, i < roll.length →
        (remove_reg_mean_incl roll pitch reg_roll reg_pitch).1.getD i 0 =
          roll.getD i 0 - npMean reg_roll)
    ∧ (∀ i, i < pitch.length →
        (remove_reg_mean_incl roll pitch reg_roll reg_pitch).2.getD i 0 =
          pitch.getD i 0 - npMean reg_pitch)
    ∧ ∀ roll2 pitch2 rr2 rp2, roll = roll2 → pitch = pitch2 →
        reg_roll = rr2 → reg_pitch = rp2 →
        remove_reg_mean_incl roll pitch reg_roll reg_pitch =
          remove_reg_mean_incl roll2 pitch2 rr2 rp2 := by
  refine ⟨⟨List.length_map _ _, List.length_map _ _⟩, ?_, ?_, ?_⟩
  · intro i hi
    have h0 : (0 : ℚ) = 0 - npMean reg_roll + npMean reg_roll := by ring
    show (roll.map (fun v => v - npMean reg_roll)).getD i 0 = _
    rw [List.getD_eq_get?, List.get?_map, get?_eq_some_getD roll 0 hi]
    rfl
  · intro i hi
    show (pitch.map (fun v => v - npMean reg_pitch)).getD i 0 = _
    rw [List.getD_eq_get?, List.get?_map, get?_eq_some_getD pitch 0 hi]
    rfl
  · intro roll2 pitch2 rr2 rp2 h1 h2 h3 h4
    rw [h1, h2, h3, h4]

/-- Witness for C3 at concrete series. -/
theorem remove_reg_mean_incl_spec_witness :
    (0 < ([1, 2] : List ℚ).length)
    ∧ (remove_reg_mean_incl [1, 2] [3] [3, 5] [1, 1, 1]).1.getD 0 0 =
        (1 : ℚ) - npMean [3, 5] :=
  ⟨by decide,
   (remove_reg_mean_incl_spec [1, 2] [3] [3, 5] [1, 1, 1]).2.1 0 (by decide)⟩

/-- C5 counterexample: the first line `np.savetxt` writes is the header
prefixed by the default comment marker `"# "`, so it is
`"# Time,Roll,Pitch"` and not `"Time,Roll,Pitch"` as the claim states. -/
theorem save_incl_header_counterexample :
    (save_incl [1] [2] [3] "out" "survey" ".txt" =
      some ("out/survey.txt", ["# Time,Roll,Pitch", "1.0000,2.0000,3.0000"]))
    ∧ "# Time,Roll,Pitch" ≠ "Time,Roll,Pitch" := by
  exact ⟨by decide, by decide⟩

/-- C5 (amended): `save_incl` writes the comma-delimited file
`<data_dir>/<root><ext>` whose first line is the header prefixed by
`np.savetxt`'s default comment marker — exactly `"# Time,Roll,Pitch"` —
followed by one row of 4-decimal fixed-point values per sample. -/
theorem save_incl_spec (t roll pitch : List ℚ) (d r e : String)
    (out : String × List String)
    (h : save_incl t roll pitch d r e = some out) :
    out.1 = d ++ "/" ++ r ++ e
    ∧ out.2.head? = some "# Time,Roll,Pitch"
    ∧ out.2.length = 1 + t.length
    ∧ ∀ i, i < t.length →
        out.2.get? (i + 1) = some
          (fmt4 (t.getD i 0) ++ "," ++ fmt4 (roll.getD i 0) ++ "," ++
            fmt4 (pitch.getD i 0)) := by
  by_cases hc : t.length = roll.length ∧ roll.length = pitch.length
  · rw [save_incl, if_pos hc] at h
    obtain rfl : _ = out := Option.some.inj h
    refine ⟨rfl, rfl, ?_, ?_⟩
    · simp only [List.length_cons, List.length_map, List.length_zip,
        ← hc.1, ← hc.2, Nat.min_self]
      omega
    · intro i hi
      have hr : i < roll.length := by omega
      have hp : i < pitch.length := by omega
      simp only [List.get?_cons_succ, List.get?_map, get?_zip_eq,
        get?_eq_some_getD t 0 hi, get?_eq_some_getD roll 0 hr,
        get?_eq_some_getD pitch 0 hp]
      rfl
  · rw [save_incl, if_neg hc] at h
    cases h

/-- Witness for C5's amended claim at a concrete one-sample file. -/
theorem save_incl_spec_witness :
    (save_incl [1] [2] [3] "out" "survey" "-incl.txt" =
      some ("out/survey-incl.txt",
        ["# Time,Roll,Pitch", "1.0000,2.0000,3.0000"]))
    ∧ ("out/survey-incl.txt",
        ["# Time,Roll,Pitch", "1.0000,2.0000,3.0000"]).2.head? =
        some "# Time,Roll,Pitch"
    ∧ ("out/survey-incl.txt",
        ["# Time,Roll,Pitch", "1.0000,2.0000,3.0000"]).2.get? 1 =
        some (fmt4 (([1] : List ℚ).getD 0 0) ++ "," ++
          fmt4 (([2] : List ℚ).getD 0 0) ++ "," ++
          fmt4 (([3] : List ℚ).getD 0 0)) := by
  have h : save_incl [1] [2] [3] "out" "survey" "-incl.txt" =
      some ("out/survey-incl.txt",
        ["# Time,Roll,Pitch", "1.0000,2.0000,3.0000"]) := by decide
  exact ⟨h, (save_incl_spec _ _ _ _ _ _ _ h).2.1,
    (save_incl_spec _ _ _ _ _ _ _ h).2.2.2 0 (by decide)⟩

/-! ## Signal filtering (`filter_incl`) -/

/-- `np.blackman(M)`: the `M`-point Blackman window.  numpy special-cases
`M = 1` to `[1.]`; otherwise the window value at position `k` is
`0.42 - 0.5·cos(2πk/(M-1)) + 0.08·cos(4πk/(M-1))` (numpy's symmetric
formula over `arange(1-M, M, 2)` rewritten with `n = 2k-(M-1)`). -/
noncomputable def blackman (M : ℕ) : List ℝ :=
  if M = 1 then [1]
  else
    (List.range M).map (fun k : ℕ =>
      (0.42 : ℝ) - 0.5 * Real.cos (2 * Real.pi * k / ((M - 1 : ℕ) : ℝ)) +
        0.08 * Real.cos (4 * Real.pi * k / ((M - 1 : ℕ) : ℝ)))

/-- `np.mean` over the reals. -/
noncomputable def npMeanR (l : List ℝ) : ℝ := l.sum / l.length

/-- `np.convolve(a, v, mode='valid')` for `len(a) ≥ len(v)`: output entry
`i` is the dot product of `a[i : i+len(v)]` with the reversal of `v`. -/
noncomputable def convolveValid (a v : List ℝ) : List ℝ :=
  (List.range (a.length + 1 - v.length)).map (fun i =>
    ∑ j in Finset.range v.length,
      a.getD (i + j) 0 * v.getD (v.length - 1 - j) 0)

/-- `filter_incl`: normalized Blackman kernel, reflect-padding of both ends
about the local mean of the 10 samples nearest each boundary
(`pad_width = np.int(kernel_length/2)` truncates, i.e. `kernel_length / 2`
on naturals), then a valid-mode convolution. -/
noncomputable def filter_incl (incl : List ℝ) (kernel_length : ℕ := 101) :
    List ℝ :=
  let kernel0 := blackman kernel_length
  let kernel := kernel0.map (fun w => w / kernel0.sum)
  let pad_width := kernel_length / 2
  let sp0 := (incl.take pad_width).reverse
  let start_pad := sp0.map (fun w => 2 * npMeanR (sp0.drop (sp0.length - 10)) - w)
  let ep0 := (incl.drop (incl.length - pad_width)).reverse
  let end_pad := ep0.map (fun w => 2 * npMeanR (ep0.take 10) - w)
  let padded_incl := start_pad ++ incl ++ end_pad
  convolveValid padded_incl kernel

theorem blackman_length (M : ℕ) : (blackman M).length = M := by
  by_cases h : M = 1
  · subst h; rfl
  · simp [blackman, h]

theorem getD_replicate_lt {α : Type} (a d : α) :
    ∀ n i : ℕ, i < n → (List.replicate n a).getD i d = a
  | 0, i, h => absurd h (Nat.not_lt_zero i)
  | n + 1, 0, _ => rfl
  | n + 1, i + 1, h => by
    simp only [List.replicate_succ, List.getD_cons_succ]
    exact getD_replicate_lt a d n i (Nat.lt_of_succ_lt_succ h)

theorem sum_getD_range : ∀ l : List ℝ,
    (∑ j in Finset.range l.length, l.getD j 0) = l.sum
  | [] => by simp
  | a :: l => by
    rw [List.length_cons, Finset.sum_range_succ']
    simp only [List.getD_cons_succ, List.getD_cons_zero]
    rw [sum_getD_range l, List.sum_cons]
    ring

theorem sum_map_div (l : List ℝ) (s : ℝ) :
    (l.map (fun w => w / s)).sum = l.sum / s := by
  induction l with
  | nil => simp
  | cons a l ih => simp [ih, add_div]

/-- C4: for every input series of length `N ≥ 101` and the default (odd)
kernel length 101, `filter_incl` returns a series of length exactly `N`:
the reflect padding adds `101 / 2 = 50` samples at each end and the valid
convolution removes `101 - 1` samples. -/
theorem filter_incl_length (incl : List ℝ) (h : 101 ≤ incl.length) :
    (filter_incl incl 101).length = incl.length := by
  simp only [filter_incl, convolveValid, List.length_map, List.length_range,
    List.length_append, List.length_reverse, List.length_take,
    List.length_drop, blackman_length]
  omega

/-- Witness for C4 on a concrete series of length 101. -/
theorem filter_incl_length_witness :
    101 ≤ (List.replicate 101 (0 : ℝ)).length
    ∧ (filter_incl (List.replicate 101 (0 : ℝ)) 101).length =
        (List.replicate 101 (0 : ℝ)).length :=
  ⟨by simp, filter_incl_length _ (by simp)⟩

theorem blackman_nonneg (M : ℕ) : ∀ w ∈ blackman M, 0 ≤ w := by
  intro w hw
  by_cases h : M = 1
  · subst h
    have hb : blackman 1 = [1] := by rw [blackman]; simp
    rw [hb, List.mem_singleton] at hw
    rw [hw]
    norm_num
  · rw [blackman, if_neg h] at hw
    obtain ⟨k, hk, rfl⟩ := List.mem_map.mp hw
    set θ := 2 * Real.pi * (k : ℝ) / ((M - 1 : ℕ) : ℝ) with hθ
    have h4 : 4 * Real.pi * (k : ℝ) / ((M - 1 : ℕ) : ℝ) = 2 * θ := by
      rw [hθ]; ring
    rw [h4, Real.cos_two_mul]
    nlinarith [Real.cos_le_one θ, Real.neg_one_le_cos θ,
      sq_nonneg (Real.cos θ - 1)]

theorem blackman_101_sum_pos : 0 < (blackman 101).sum := by
  have hcast : ((101 - 1 : ℕ) : ℝ) = 100 := by norm_num
  have hmem : (1 : ℝ) ∈ blackman 101 := by
    rw [blackman, if_neg (by norm_num)]
    refine List.mem_map.mpr ⟨50, List.mem_range.mpr (by norm_num), ?_⟩
    have h1 : 2 * Real.pi * ((50 : ℕ) : ℝ) / ((101 - 1 : ℕ) : ℝ) = Real.pi := by
      rw [hcast]; push_cast; ring
    have h2 : 4 * Real.pi * ((50 : ℕ) : ℝ) / ((101 - 1 : ℕ) : ℝ) =
        2 * Real.pi := by
      rw [hcast]; push_cast; ring
    rw [h1, h2, Real.cos_pi, Real.cos_two_pi]
    norm_num
  have hle := List.single_le_sum (blackman_nonneg 101) 1 hmem
  linarith

theorem convolveValid_replicate (N : ℕ) (c : ℝ) (v : List ℝ)
    (hv : v.length = 101) (hsum : v.sum = 1) :
    convolveValid (List.replicate (N + 100) c) v = List.replicate N c := by
  unfold convolveValid
  rw [hv, List.length_replicate]
  have hL : N + 100 + 1 - 101 = N := by omega
  rw [hL]
  have hpt : ∀ i ∈ List.range N,
      (∑ j in Finset.range 101,
        (List.replicate (N + 100) c).getD (i + j) 0 *
          v.getD (101 - 1 - j) 0) = c := by
    intro i hi
    have hiN : i < N := List.mem_range.mp hi
    have h1 : ∀ j ∈ Finset.range 101,
        (List.replicate (N + 100) c).getD (i + j) 0 * v.getD (101 - 1 - j) 0 =
          c * v.getD (101 - 1 - j) 0 := by
      intro j hj
      have hj101 : j < 101 := Finset.mem_range.mp hj
      rw [getD_replicate_lt c 0 (N + 100) (i + j) (by omega)]
    rw [Finset.sum_congr rfl h1, ← Finset.mul_sum]
    have h2 : (∑ j in Finset.range 101, v.getD (101 - 1 - j) 0) = 1 := by
      rw [Finset.sum_range_reflect (fun j => v.getD j 0) 101, ← hv,
        sum_getD_range v, hsum]
    rw [h2, mul_one]
  rw [List.map_congr_left hpt, List.map_const', List.length_range]

/-- C7: filtering a constant series of length `N ≥ 101` returns the same
constant series unchanged (exactly, over exact real arithmetic): the
normalized Blackman window sums to 1 and the reflect padding of a constant
signal reproduces the constant. -/
theorem filter_incl_const (N : ℕ) (c : ℝ) (h : 101 ≤ N) :
    filter_incl (List.replicate N c) 101 = List.replicate N c := by
  have hm10 : npMeanR (List.replicate 10 c) = c := by
    rw [npMeanR, List.sum_replicate, List.length_replicate, nsmul_eq_mul]
    push_cast
    ring
  have h50 : (101 : ℕ) / 2 = 50 := by norm_num
  have h5010 : (50 : ℕ) - 10 = 40 := by norm_num
  have htake : (List.replicate N c).take 50 = List.replicate 50 c := by
    rw [List.take_replicate]
    congr 1
    omega
  have hdrop : (List.replicate N c).drop (N - 50) = List.replicate 50 c := by
    rw [List.drop_replicate]
    congr 1
    omega
  have hdrop40 : (List.replicate 50 c).drop 40 = List.replicate 10 c := by
    rw [List.drop_replicate]
  have htake10 : (List.replicate 50 c).take 10 = List.replicate 10 c := by
    rw [List.take_replicate]
    congr 1
  have h2c : (fun w : ℝ => 2 * c - w) = fun w : ℝ => 2 * c - w := rfl
  simp only [filter_incl, h50, List.length_replicate, htake, hdrop,
    List.reverse_replicate, h5010, hdrop40, htake10, hm10, List.map_replicate]
  have h2c2 : 2 * c - c = c := by ring
  rw [h2c2]
  have happ : List.replicate 50 c ++ List.replicate N c ++ List.replicate 50 c =
      List.replicate (N + 100) c := by
    rw [← List.replicate_add, ← List.replicate_add]
    congr 1
    omega
  rw [happ]
  exact convolveValid_replicate N c _
    (by rw [List.length_map, blackman_length])
    (by rw [sum_map_div, div_self (ne_of_gt blackman_101_sum_pos)])

/-- Witness for C7 on a concrete constant series of length 101. -/
theorem filter_incl_const_witness :
    101 ≤ (List.replicate 101 (3 : ℝ)).length
    ∧ filter_incl (List.replicate 101 (3 : ℝ)) 101 =
        List.replicate 101 (3 : ℝ) :=
  ⟨by simp, filter_incl_const 101 3 (by norm_num)⟩

/-! ## Azimuth extraction (`get_phi`) -/

/-- `np.arctan2(y, x)`: the argument of the complex number `x + iy`, in
`(-π, π]`. -/
noncomputable def atan2 (y x : ℝ) : ℝ := Complex.arg { re := x, im := y }

/-- `np.searchsorted(a, v)` (left insertion point) on an ascending array
`a`: the first index whose element is `≥ v`, or `len(a)` if there is none. -/
noncomputable def searchsorted (a : List ℝ) (v : ℝ) : ℕ :=
  match a with
  | [] => 0
  | p :: rest => if v ≤ p then 0 else searchsorted rest v + 1

/-- Elementwise fallible map: `none` as soon as one element fails (a numpy
vectorized operation raising on some element). -/
def mapOption {α β : Type} (f : α → Option β) : List α → Option (List β)
  | [] => some []
  | a :: l => (f a).bind (fun b => (mapOption f l).map (fun bs => b :: bs))

/-- The near-field mask of `get_phi`: `np.sqrt(x**2 + y**2) > 100`, applied
to a `(pt, (x, y))` record. -/
noncomputable def nearMask (p : ℝ × ℝ × ℝ) : Bool :=
  decide (100 < Real.sqrt (p.2.1 ^ 2 + p.2.2 ^ 2))

/-- The azimuth `get_phi` produces for one inclination time `tk`, given the
masked point records `kept`: `searchsorted` on the masked point times, the
out-of-bounds clamp `idx[idx >= len(pt)] -= 1`, then `arctan2(y[idx],
x[idx])` (`none` exactly when that indexing raises). -/
noncomputable def phiAt (kept : List (ℝ × ℝ × ℝ)) (tk : ℝ) : Option ℝ :=
  let ptm := kept.map (fun p => p.1)
  let xm := kept.map (fun p => p.2.1)
  let ym := kept.map (fun p => p.2.2)
  let i0 := searchsorted ptm tk
  let i := if ptm.length ≤ i0 then i0 - 1 else i0
  (xm.get? i).bind (fun xv => (ym.get? i).map (fun yv => atan2 yv xv))

/-- `get_phi`: mask out near-field points, then compute one azimuth per
inclination time.  numpy raises if the boolean mask length differs from the
indexed array's length, i.e. when `pt`, `x`, `y` do not all have the same
length. -/
noncomputable def get_phi (it pt x y : List ℝ) : Option (List ℝ) :=
  if pt.length = x.length ∧ x.length = y.length then
    mapOption (phiAt ((pt.zip (x.zip y)).filter nearMask)) it
  else none

theorem searchsorted_le_length (a : List ℝ) (v : ℝ) :
    searchsorted a v ≤ a.length := by
  induction a with
  | nil => simp [searchsorted]
  | cons p rest ih =>
    by_cases h : v ≤ p
    · simp [searchsorted, h]
    · simp only [searchsorted, if_neg h, List.length_cons]
      exact Nat.succ_le_succ ih

theorem mapOption_isSome {α β : Type} (f : α → Option β) :
    ∀ l : List α, (∀ a ∈ l, (f a).isSome) → (mapOption f l).isSome := by
  intro l
  induction l with
  | nil => intro _; rfl
  | cons a l ih =>
    intro h
    obtain ⟨b, hb⟩ := Option.isSome_iff_exists.mp (h a (List.mem_cons_self a l))
    obtain ⟨bs, hbs⟩ := Option.isSome_iff_exists.mp
      (ih (fun u hu => h u (List.mem_cons_of_mem a hu)))
    simp [mapOption, hb, hbs]

theorem mapOption_mem {α β : Type} (f : α → Option β) :
    ∀ (l : List α) (bs : List β), mapOption f l = some bs →
      ∀ b ∈ bs, ∃ a ∈ l, f a = some b := by
  intro l
  induction l with
  | nil =>
    intro bs h b hb
    obtain rfl : ([] : List β) = bs := Option.some.inj h
    cases hb
  | cons a l ih =>
    intro bs h b hb
    cases hfa : f a with
    | none => rw [mapOption, hfa] at h; cases h
    | some b0 =>
      cases hml : mapOption f l with
      | none => rw [mapOption, hfa, hml] at h; cases h
      | some bs0 =>
        rw [mapOption, hfa, hml] at h
        obtain rfl : b0 :: bs0 = bs := Option.some.inj h
        rcases List.mem_cons.mp hb with rfl | hb0
        · exact ⟨a, List.mem_cons_self a l, hfa⟩
        · obtain ⟨u, hu, hfu⟩ := ih bs0 hml b hb0
          exact ⟨u, List.mem_cons_of_mem a hu, hfu⟩

theorem phiAt_isSome (kept : List (ℝ × ℝ × ℝ)) (tk : ℝ) (h : kept ≠ []) :
    (phiAt kept tk).isSome := by
  have hk : 0 < kept.length := List.length_pos.mpr h
  simp only [phiAt]
  have hle := searchsorted_le_length (kept.map (fun p => p.1)) tk
  rw [List.length_map] at hle
  by_cases hc : (kept.map (fun p => p.1)).length ≤
      searchsorted (kept.map (fun p => p.1)) tk
  · rw [if_pos hc]
    rw [List.length_map] at hc
    rw [get?_eq_some_getD (kept.map (fun p => p.2.1)) 0
        (by rw [List.length_map]; omega),
      get?_eq_some_getD (kept.map (fun p => p.2.2)) 0
        (by rw [List.length_map]; omega)]
    rfl
  · rw [if_neg hc]
    rw [List.length_map] at hc
    rw [get?_eq_some_getD (kept.map (fun p => p.2.1)) 0
        (by rw [List.length_map]; omega),
      get?_eq_some_getD (kept.map (fun p => p.2.2)) 0
        (by rw [List.length_map]; omega)]
    rfl

theorem phiAt_arg (kept : List (ℝ × ℝ × ℝ)) (tk φ : ℝ)
    (h : phiAt kept tk = some φ) : ∃ a b : ℝ, φ = atan2 b a := by
  simp only [phiAt] at h
  cases hgx : (kept.map (fun p => p.2.1)).get?
      (if (kept.map (fun p => p.1)).length ≤
          searchsorted (kept.map (fun p => p.1)) tk then
        searchsorted (kept.map (fun p => p.1)) tk - 1
      else searchsorted (kept.map (fun p => p.1)) tk) with
  | none => rw [hgx] at h; cases h
  | some xv =>
    cases hgy : (kept.map (fun p => p.2.2)).get?
        (if (kept.map (fun p => p.1)).length ≤
            searchsorted (kept.map (fun p => p.1)) tk then
          searchsorted (kept.map (fun p => p.1)) tk - 1
        else searchsorted (kept.map (fun p => p.1)) tk) with
    | none => rw [hgx, hgy] at h; cases h
    | some yv =>
      rw [hgx, hgy] at h
      obtain rfl : atan2 yv xv = φ := Option.some.inj h
      exact ⟨xv, yv, rfl⟩

/-- C6: with the masked point array non-empty (at least one point outside
the 100-unit near-field exclusion radius) and consistently sized inputs,
every binary-search index of `get_phi` — clamped to the last valid index
when it lands at or past the end — is in bounds, so `get_phi` never raises
an out-of-range error (it returns a value, never `none`). -/
theorem get_phi_safe (it pt x y : List ℝ)
    (hxy : pt.length = x.length) (hyz : x.length = y.length)
    (hfar : ∃ i, ∃ _ : i < pt.length, ∃ hx : i < x.length, ∃ hy : i < y.length,
      100 < Real.sqrt (x[i] ^ 2 + y[i] ^ 2)) :
    (get_phi it pt x y).isSome := by
  rw [get_phi, if_pos ⟨hxy, hyz⟩]
  apply mapOption_isSome
  intro tk _
  apply phiAt_isSome
  obtain ⟨i, hpt, hx, hy, h100⟩ := hfar
  have hz1 : i < (x.zip y).length := by
    rw [List.length_zip]; omega
  have hz2 : i < (pt.zip (x.zip y)).length := by
    rw [List.length_zip, List.length_zip]; omega
  have he : (pt.zip (x.zip y))[i] = (pt[i], (x.zip y)[i]) := List.getElem_zip
  have he2 : (x.zip y)[i] = (x[i], y[i]) := List.getElem_zip
  rw [he2] at he
  have hmem : (pt[i], x[i], y[i]) ∈ pt.zip (x.zip y) := by
    rw [← he]; exact List.getElem_mem _
  have hmask : nearMask (pt[i], x[i], y[i]) = true := by
    simp only [nearMask, decide_eq_true_eq]
    exact h100
  exact List.ne_nil_of_mem (List.mem_filter.mpr ⟨hmem, hmask⟩)

/-- C8: every azimuth `get_phi` returns lies in `(-π, π]` (the `atan2`
convention), for every inclination series and every point cloud with at
least one point outside the near-field exclusion radius. -/
theorem get_phi_range (it pt x y : List ℝ) (res : List ℝ)
    (hxy : pt.length = x.length) (hyz : x.length = y.length)
    (hfar : ∃ i, ∃ _ : i < pt.length, ∃ hx : i < x.length, ∃ hy : i < y.length,
      100 < Real.sqrt (x[i] ^ 2 + y[i] ^ 2))
    (hres : get_phi it pt x y = some res) :
    ∀ φ ∈ res, φ ∈ Set.Ioc (-Real.pi) Real.pi := by
  intro φ hφ
  rw [get_phi, if_pos ⟨hxy, hyz⟩] at hres
  obtain ⟨tk, _, hsome⟩ := mapOption_mem _ it res hres φ hφ
  obtain ⟨a, b, rfl⟩ := phiAt_arg _ _ _ hsome
  exact Complex.arg_mem_Ioc _

theorem sqrt_200_sq : Real.sqrt ((200 : ℝ) ^ 2 + 0 ^ 2) = 200 := by
  rw [show ((200 : ℝ) ^ 2 + 0 ^ 2) = 200 ^ 2 by norm_num,
    Real.sqrt_sq (by norm_num : (0 : ℝ) ≤ 200)]

theorem nearMask_witness_true : nearMask ((0 : ℝ), (200 : ℝ), (0 : ℝ)) = true := by
  simp only [nearMask, decide_eq_true_eq]
  rw [sqrt_200_sq]
  norm_num

/-- Witness for C6 at a one-point cloud 200 units from the origin. -/
theorem get_phi_safe_witness :
    (([0] : List ℝ).length = ([200] : List ℝ).length)
    ∧ (([200] : List ℝ).length = ([0] : List ℝ).length)
    ∧ 100 < Real.sqrt ((([200] : List ℝ)[0]) ^ 2 + (([0] : List ℝ)[0]) ^ 2)
    ∧ (get_phi [0] [0] [200] [0]).isSome := by
  have h100 : (100 : ℝ) < Real.sqrt ((([200] : List ℝ)[0]) ^ 2 +
      (([0] : List ℝ)[0]) ^ 2) := by
    show (100 : ℝ) < Real.sqrt ((200 : ℝ) ^ 2 + 0 ^ 2)
    rw [sqrt_200_sq]
    norm_num
  exact ⟨rfl, rfl, h100,
    get_phi_safe [0] [0] [200] [0] rfl rfl
      ⟨0, by norm_num, by norm_num, by norm_num, h100⟩⟩

theorem searchsorted_single_zero : searchsorted [(0 : ℝ)] 0 = 0 := by
  simp only [searchsorted]
  rw [if_pos (le_refl (0 : ℝ))]

theorem phiAt_witness_eval :
    phiAt [((0 : ℝ), (200 : ℝ), (0 : ℝ))] 0 = some (atan2 0 200) := by
  simp only [phiAt, List.map_cons, List.map_nil, searchsorted_single_zero,
    List.length_singleton]
  rw [if_neg (by norm_num : ¬ (1 ≤ 0))]
  rfl

theorem get_phi_witness_eval :
    get_phi [0] [0] [200] [0] = some [atan2 0 200] := by
  rw [get_phi, if_pos ⟨rfl, rfl⟩]
  show mapOption (phiAt (List.filter nearMask [((0 : ℝ), (200 : ℝ), (0 : ℝ))]))
      [(0 : ℝ)] = _
  rw [List.filter_cons, if_pos nearMask_witness_true]
  show mapOption (phiAt [((0 : ℝ), (200 : ℝ), (0 : ℝ))]) [(0 : ℝ)] = _
  simp only [mapOption, phiAt_witness_eval]
  rfl

/-- Witness for C8 at a one-point cloud 200 units from the origin. -/
theorem get_phi_range_witness :
    (get_phi [0] [0] [200] [0] = some [atan2 0 200])
    ∧ atan2 0 200 ∈ Set.Ioc (-Real.pi) Real.pi := by
  refine ⟨get_phi_witness_eval, ?_⟩
  have h100 : (100 : ℝ) < Real.sqrt ((([200] : List ℝ)[0]) ^ 2 +
      (([0] : List ℝ)[0]) ^ 2) := by
    show (100 : ℝ) < Real.sqrt ((200 : ℝ) ^ 2 + 0 ^ 2)
    rw [sqrt_200_sq]
    norm_num
  exact get_phi_range [0] [0] [200] [0] [atan2 0 200] rfl rfl
    ⟨0, by norm_num, by norm_num, by norm_num, h100⟩
    get_phi_witness_eval (atan2 0 200) (List.mem_singleton.mpr rfl)

/-! ## Per-point warp masks (`warp_cloud`) -/

/-- `it_mid = (it[1:] + it[:-1]) / 2`: midpoints of consecutive inclination
times. -/
noncomputable def itMid (it : List ℝ) : List ℝ :=
  (it.tail.zip it.dropLast).map (fun p => (p.1 + p.2) / 2)

/-- The boolean mask `warp_cloud` computes for bin `i` over point times
`pt`: `pt <= it_mid[i]` for the first bin, `pt > it_mid[i-1]` for the last
bin, and `(pt > it_mid[i-1]) & (pt <= it_mid[i])` for an interior bin;
`none` when a midpoint index is out of range (numpy `IndexError`). -/
noncomputable def maskFor (it : List ℝ) (i : ℕ) (pt : List ℝ) :
    Option (List Bool) :=
  let mid := itMid it
  if i = 0 then (mid.get? i).map (fun m => pt.map (fun t => decide (t ≤ m)))
  else if i = it.length - 1 then
    (mid.get? (i - 1)).map (fun m => pt.map (fun t => decide (m < t)))
  else
    (mid.get? (i - 1)).bind (fun a => (mid.get? i).map (fun b =>
      pt.map (fun t => decide (a < t) && decide (t ≤ b))))

theorem itMid_cons (a b : ℝ) (rest : List ℝ) :
    itMid (a :: b :: rest) = (b + a) / 2 :: itMid (b :: rest) := rfl

theorem itMid_length (it : List ℝ) : (itMid it).length = it.length - 1 := by
  simp [itMid, List.length_zip, List.length_tail, List.length_dropLast]

theorem itMid_chain : ∀ it : List ℝ, it.Chain' (· < ·) →
    (itMid it).Chain' (· ≤ ·)
  | [], _ => by simp [itMid]
  | [a], _ => by simp [itMid]
  | a :: b :: [], _ => by
    rw [itMid_cons]
    simp [itMid]
  | a :: b :: c :: rest, h => by
    rw [itMid_cons, itMid_cons]
    have hab : a < b := (List.chain'_cons.mp h).1
    have h2 := (List.chain'_cons.mp h).2
    have hbc : b < c := (List.chain'_cons.mp h2).1
    have ih := itMid_chain (b :: c :: rest) h2
    rw [itMid_cons] at ih
    exact List.chain'_cons.mpr ⟨by linarith, ih⟩

theorem pairwise_getD_le (l : List ℝ) (hp : l.Pairwise (· ≤ ·)) {a b : ℕ}
    (hab : a ≤ b) (hb : b < l.length) : l.getD a 0 ≤ l.getD b 0 := by
  rcases Nat.eq_or_lt_of_le hab with rfl | hlt
  · exact le_refl _
  · have ha : a < l.length := lt_trans hlt hb
    rw [List.getD_eq_getElem l 0 ha, List.getD_eq_getElem l 0 hb]
    exact List.pairwise_iff_getElem.mp hp a b ha hb hlt

/-- The consecutive-midpoint rule over an ascending midpoint list partitions
the real line: every `t` falls in exactly one of the `len(ms) + 1` cells
`(-∞, ms[0]]`, `(ms[i-1], ms[i]]`, `(ms[last], ∞)`. -/
theorem binPartition (ms : List ℝ) (hms : ms.Pairwise (· ≤ ·)) (t : ℝ) :
    ∃! i : ℕ, i ≤ ms.length ∧
      (i = 0 ∨ ms.getD (i - 1) 0 < t) ∧
      (i = ms.length ∨ t ≤ ms.getD i 0) := by
  induction ms with
  | nil =>
    refine ⟨0, ⟨le_refl 0, Or.inl rfl, Or.inl rfl⟩, ?_⟩
    intro j hj
    exact Nat.le_zero.mp hj.1
  | cons m rest ih =>
    have hrest : rest.Pairwise (· ≤ ·) := (List.pairwise_cons.mp hms).2
    by_cases ht : t ≤ m
    · refine ⟨0, ⟨Nat.zero_le _, Or.inl rfl, Or.inr ht⟩, ?_⟩
      intro j hj
      by_contra hne
      have hj1 : 1 ≤ j := Nat.one_le_iff_ne_zero.mpr hne
      rcases hj.2.1 with h0 | hlt
      · exact hne h0
      · have hjlen : j ≤ rest.length + 1 := by
          simpa using hj.1
        have hj1len : j - 1 < (m :: rest).length := by
          simp only [List.length_cons]
          omega
        have hmono : (m :: rest).getD 0 0 ≤ (m :: rest).getD (j - 1) 0 :=
          pairwise_getD_le _ hms (Nat.zero_le _) hj1len
        have hm0 : (m :: rest).getD 0 0 = m := rfl
        rw [hm0] at hmono
        linarith
    · have htm : m < t := not_le.mp ht
      obtain ⟨i, ⟨hile, hlow, hup⟩, huniq⟩ := ih hrest
      refine ⟨i + 1, ⟨?_, ?_, ?_⟩, ?_⟩
      · simp only [List.length_cons]
        omega
      · right
        cases i with
        | zero => exact htm
        | succ i' =>
          rcases hlow with habs | hlow2
          · exact absurd habs (Nat.succ_ne_zero _)
          · rw [show i' + 1 + 1 - 1 = i' + 1 from rfl, List.getD_cons_succ]
            simpa using hlow2
      · rcases hup with h | h
        · left
          simp [List.length_cons, h]
        · right
          rw [List.getD_cons_succ]
          exact h
      · intro j hj
        cases j with
        | zero =>
          exfalso
          rcases hj.2.2 with h0 | hle0
          · simp [List.length_cons] at h0
          · exact absurd hle0 (not_le.mpr htm)
        | succ j' =>
          have hj'P : j' ≤ rest.length ∧
              (j' = 0 ∨ rest.getD (j' - 1) 0 < t) ∧
              (j' = rest.length ∨ t ≤ rest.getD j' 0) := by
            refine ⟨?_, ?_, ?_⟩
            · have := hj.1
              simp only [List.length_cons] at this
              omega
            · cases j' with
              | zero => exact Or.inl rfl
              | succ j'' =>
                right
                rcases hj.2.1 with habs | h1
                · exact absurd habs (Nat.succ_ne_zero _)
                · rw [show j'' + 1 + 1 - 1 = j'' + 1 from rfl,
                    List.getD_cons_succ] at h1
                  simpa using h1
            · rcases hj.2.2 with h | h
              · left
                simp only [List.length_cons] at h
                omega
              · right
                rw [List.getD_cons_succ] at h
                exact h
          have := huniq j' hj'P
          omega

theorem some_singleton_decide {P : Prop} [Decidable P] :
    (some [decide P] = some [true]) ↔ P := by simp

theorem some_singleton_decide_and {P Q : Prop} [Decidable P] [Decidable Q] :
    (some [decide P && decide Q] = some [true]) ↔ P ∧ Q := by simp

theorem maskFor_singleton_iff (it : List ℝ) (h2 : 2 ≤ it.length) (i : ℕ)
    (hi : i < it.length) (t : ℝ) :
    maskFor it i [t] = some [true] ↔
      ((i = 0 ∨ (itMid it).getD (i - 1) 0 < t) ∧
        (i = (itMid it).length ∨ t ≤ (itMid it).getD i 0)) := by
  have hmlen : (itMid it).length = it.length - 1 := itMid_length it
  by_cases hi0 : i = 0
  · subst hi0
    have h0 : 0 < (itMid it).length := by omega
    rw [show maskFor it 0 [t] =
        Option.map (fun m => List.map (fun u => decide (u ≤ m)) [t])
          ((itMid it).get? 0) from rfl,
      get?_eq_some_getD (itMid it) 0 h0, Option.map_some',
      List.map_cons, List.map_nil, some_singleton_decide]
    constructor
    · intro h
      exact ⟨Or.inl rfl, Or.inr h⟩
    · rintro ⟨-, h2'⟩
      rcases h2' with habs | hle
      · omega
      · exact hle
  · by_cases hilast : i = it.length - 1
    · have hprev : i - 1 < (itMid it).length := by omega
      simp only [maskFor]
      rw [if_neg hi0, if_pos hilast, get?_eq_some_getD (itMid it) 0 hprev,
        Option.map_some', List.map_cons, List.map_nil, some_singleton_decide]
      constructor
      · intro h
        exact ⟨Or.inr h, Or.inl (by omega)⟩
      · rintro ⟨h1, -⟩
        rcases h1 with habs | hlt
        · exact absurd habs hi0
        · exact hlt
    · have hltn : i < it.length - 1 := by omega
      have hprev : i - 1 < (itMid it).length := by omega
      have hcur : i < (itMid it).length := by omega
      simp only [maskFor]
      rw [if_neg hi0, if_neg hilast, get?_eq_some_getD (itMid it) 0 hprev,
        get?_eq_some_getD (itMid it) 0 hcur]
      rw [show ((some ((itMid it).getD (i - 1) 0)).bind fun a =>
          (some ((itMid it).getD i 0)).map fun b =>
            List.map (fun u => decide (a < u) && decide (u ≤ b)) [t]) =
          some [decide ((itMid it).getD (i - 1) 0 < t) &&
            decide (t ≤ (itMid it).getD i 0)] from rfl]
      rw [some_singleton_decide_and]
      constructor
      · intro h
        exact ⟨Or.inr h.1, Or.inr h.2⟩
      · rintro ⟨h1, h2'⟩
        refine ⟨?_, ?_⟩
        · rcases h1 with habs | ha
          · exact absurd habs hi0
          · exact ha
        · rcases h2' with habs | hb
          · omega
          · exact hb

/-- C1: for inclination times `it` with `len(it) ≥ 2` satisfying the
inclination-series invariant (strictly increasing timestamps), the
consecutive-midpoint rule of `warp_cloud` assigns every point time `t` to
exactly one of the `len(it)` bins — bin 0 for `t ≤ mid[0]`, the last bin
for `t > mid[last]`, interior bin `i` for `mid[i-1] < t ≤ mid[i]` — so the
bin masks are pairwise disjoint and jointly cover every point. -/
theorem warp_cloud_bins (it : List ℝ) (t : ℝ) (h2 : 2 ≤ it.length)
    (hsorted : it.Chain' (· < ·)) :
    ∃! i : ℕ, i < it.length ∧ maskFor it i [t] = some [true] := by
  have hmlen : (itMid it).length = it.length - 1 := itMid_length it
  have hpair : (itMid it).Pairwise (· ≤ ·) :=
    List.chain'_iff_pairwise.mp (itMid_chain it hsorted)
  obtain ⟨i, ⟨hile, hlow, hup⟩, huniq⟩ := binPartition (itMid it) hpair t
  have hin : i < it.length := by omega
  refine ⟨i, ⟨hin, ?_⟩, ?_⟩
  · rw [maskFor_singleton_iff it h2 i hin t]
    exact ⟨hlow, hup⟩
  · intro j hj
    have hjP := (maskFor_singleton_iff it h2 j hj.1 t).mp hj.2
    exact huniq j ⟨by omega, hjP.1, hjP.2⟩

/-- Witness for C1 at the inclination times `[0, 2]` and point time `5`
(falling in the last bin). -/
theorem warp_cloud_bins_witness :
    2 ≤ ([0, 2] : List ℝ).length
    ∧ List.Chain' (· < ·) ([0, 2] : List ℝ)
    ∧ ∃! i : ℕ, i < ([0, 2] : List ℝ).length ∧
        maskFor [0, 2] i [5] = some [true] := by
  have hc : List.Chain' (· < ·) ([0, 2] : List ℝ) := by
    rw [List.chain'_cons]
    exact ⟨by norm_num, List.chain'_singleton 2⟩
  exact ⟨by norm_num, hc, warp_cloud_bins [0, 2] 5 (by norm_num) hc⟩

/-! ## Point-cloud transforms over an explicit array store

`rotate_cloud`, `warp_cloud` and `sop_pop_cloud` read numpy arrays, allocate
new ones (`np.zeros`, arithmetic results) and, in `warp_cloud`'s case, write
into the freshly allocated `xyz_rot` through boolean-mask assignment.  To
state what they do and do not mutate, arrays live in an explicit store (a
list of arrays addressed by index); the `(len(x), 3)` array `xyz_rot` is
represented by its three column arrays. -/

abbrev Store := List (List ℝ)

def Store.read (s : Store) (i : ℕ) : Option (List ℝ) := List.get? s i

def Store.alloc (s : Store) (v : List ℝ) : Store × ℕ := (s ++ [v], s.length)

def Store.write (s : Store) (i : ℕ) (v : List ℝ) : Store := List.set s i v

/-- `np.deg2rad`. -/
noncomputable def deg2rad (d : ℝ) : ℝ := d * Real.pi / 180

/-- The roll rotation matrix built by `rotate_cloud`/`warp_cloud`. -/
noncomputable def R_roll (roll : ℝ) : Matrix (Fin 3) (Fin 3) ℝ :=
  !![1, 0, 0;
     0, Real.cos (deg2rad roll), -Real.sin (deg2rad roll);
     0, Real.sin (deg2rad roll), Real.cos (deg2rad roll)]

/-- The pitch rotation matrix built by `rotate_cloud`/`warp_cloud`. -/
noncomputable def R_pitch (pitch : ℝ) : Matrix (Fin 3) (Fin 3) ℝ :=
  !![Real.cos (deg2rad pitch), 0, Real.sin (deg2rad pitch);
     0, 1, 0;
     -Real.sin (deg2rad pitch), 0, Real.cos (deg2rad pitch)]

/-- `(R_pitch @ R_roll @ np.vstack((x, y, z))).T`, returned as its three
columns. -/
noncomputable def rotatePoints (roll pitch : ℝ) (x y z : List ℝ) :
    List ℝ × List ℝ × List ℝ :=
  let R := R_pitch pitch * R_roll roll
  let pts := (x.zip (y.zip z)).map (fun p => R.mulVec ![p.1, p.2.1, p.2.2])
  (pts.map (fun v => v 0), pts.map (fun v => v 1), pts.map (fun v => v 2))

/-- Boolean-mask indexing `x[mask]`; `none` when the mask length differs
from the array length (numpy raises). -/
def applyMask {α : Type} : List Bool → List α → Option (List α)
  | [], [] => some []
  | true :: m, a :: l => (applyMask m l).map (fun r => a :: r)
  | false :: m, _ :: l => applyMask m l
  | _, _ => none

/-- Boolean-mask assignment `dst[mask] = vals`; `none` when the shapes do
not agree (numpy raises). -/
def maskedSet {α : Type} : List α → List Bool → List α → Option (List α)
  | [], [], [] => some []
  | a :: l, false :: m, vs => (maskedSet l m vs).map (fun r => a :: r)
  | _ :: l, true :: m, v :: vs => (maskedSet l m vs).map (fun r => v :: r)
  | _, _, _ => none

/-- The array ids a `warp_cloud` loop iteration works with: the seven input
arrays and the three columns of the freshly allocated `xyz_rot`. -/
structure WarpIds where
  pt : ℕ
  x : ℕ
  y : ℕ
  z : ℕ
  it : ℕ
  roll : ℕ
  pitch : ℕ
  xr : ℕ
  yr : ℕ
  zr : ℕ

/-- One iteration of `warp_cloud`'s loop: build the bin mask, rotate the
masked points with the bin's roll/pitch, write them into `xyz_rot[mask]`. -/
noncomputable def warpStep (ids : WarpIds) (s : Store) (i : ℕ) :
    Option Store :=
  (s.read ids.pt).bind fun pt =>
  (s.read ids.it).bind fun it =>
  (s.read ids.roll).bind fun roll =>
  (s.read ids.pitch).bind fun pitch =>
  (s.read ids.x).bind fun x =>
  (s.read ids.y).bind fun y =>
  (s.read ids.z).bind fun z =>
  (maskFor it i pt).bind fun mask =>
  (roll.get? i).bind fun rv =>
  (pitch.get? i).bind fun pv =>
  (applyMask mask x).bind fun xs =>
  (applyMask mask y).bind fun ys =>
  (applyMask mask z).bind fun zs =>
  (s.read ids.xr).bind fun xr =>
  (s.read ids.yr).bind fun yr =>
  (s.read ids.zr).bind fun zr =>
  (maskedSet xr mask (rotatePoints rv pv xs ys zs).1).bind fun xr2 =>
  (maskedSet yr mask (rotatePoints rv pv xs ys zs).2.1).bind fun yr2 =>
  (maskedSet zr mask (rotatePoints rv pv xs ys zs).2.2).map fun zr2 =>
  ((s.write ids.xr xr2).write ids.yr yr2).write ids.zr zr2

/-- `for i in range(0, len(it))` of `warp_cloud`. -/
noncomputable def warpLoop (ids : WarpIds) : Store → List ℕ → Option Store
  | s, [] => some s
  | s, i :: rest => (warpStep ids s i).bind (fun s2 => warpLoop ids s2 rest)

/-- `warp_cloud` over the store: allocate the three zero columns of
`xyz_rot`, run the per-bin loop, and return the final store with the ids of
the three result columns. -/
noncomputable def warp_cloud (ptId xId yId zId itId rollId pitchId : ℕ)
    (s : Store) : Option (Store × ℕ × ℕ × ℕ) :=
  (s.read xId).bind fun x =>
  (s.read itId).bind fun it =>
  let a1 := s.alloc (List.replicate x.length 0)
  let a2 := a1.1.alloc (List.replicate x.length 0)
  let a3 := a2.1.alloc (List.replicate x.length 0)
  (warpLoop ⟨ptId, xId, yId, zId, itId, rollId, pitchId, a1.2, a2.2, a3.2⟩
    a3.1 (List.range it.length)).map fun s4 =>
  (s4, a1.2, a2.2, a3.2)

/-- The two `mode` strings `rotate_cloud` recognizes. -/
inductive RotateMode
  | center
  | mean

/-- `rotate_cloud` over the store: pick the center or mean roll/pitch,
rotate every point with that single rotation, and return fresh result
arrays. -/
noncomputable def rotate_cloud (xId yId zId rollId pitchId : ℕ)
    (mode : RotateMode) (s : Store) : Option (Store × ℕ × ℕ × ℕ) :=
  (s.read xId).bind fun x =>
  (s.read yId).bind fun y =>
  (s.read zId).bind fun z =>
  (s.read rollId).bind fun roll =>
  (s.read pitchId).bind fun pitch =>
  (match mode with
    | RotateMode.center => roll.get? (roll.length / 2)
    | RotateMode.mean => some (npMeanR roll)).bind fun rv =>
  (match mode with
    | RotateMode.center => pitch.get? (pitch.length / 2)
    | RotateMode.mean => some (npMeanR pitch)).map fun pv =>
  let rot := rotatePoints rv pv x y z
  let a1 := s.alloc rot.1
  let a2 := a1.1.alloc rot.2.1
  let a3 := a2.1.alloc rot.2.2
  (a3.1, a1.2, a2.2, a3.2)

/-- `sop_pop_cloud` over the store: append a homogeneous 1 to every point,
left-multiply by the loaded 4×4 matrix, and return the first three output
columns as fresh arrays. -/
noncomputable def sop_pop_cloud (xId yId zId : ℕ)
    (mat : Matrix (Fin 4) (Fin 4) ℝ) (s : Store) :
    Option (Store × ℕ × ℕ × ℕ) :=
  (s.read xId).bind fun x =>
  (s.read yId).bind fun y =>
  (s.read zId).map fun z =>
  let pts := (x.zip (y.zip z)).map
    (fun p => mat.mulVec ![p.1, p.2.1, p.2.2, 1])
  let a1 := s.alloc (pts.map (fun v => v 0))
  let a2 := a1.1.alloc (pts.map (fun v => v 1))
  let a3 := a2.1.alloc (pts.map (fun v => v 2))
  (a3.1, a1.2, a2.2, a3.2)

theorem read_lt_length {s : Store} {n : ℕ} {v : List ℝ}
    (h : s.read n = some v) : n < s.length := by
  by_contra hc
  rw [Store.read, List.get?_eq_none.mpr (Nat.le_of_not_lt hc)] at h
  cases h

theorem get?_append_three (s : Store) (v1 v2 v3 : List ℝ) {j : ℕ}
    (hj : j < s.length) :
    (((s ++ [v1]) ++ [v2]) ++ [v3]).get? j = s.get? j := by
  have h1 : j < (s ++ [v1]).length := by
    simp only [List.length_append, List.length_singleton]
    omega
  have h2 : j < ((s ++ [v1]) ++ [v2]).length := by
    simp only [List.length_append, List.length_singleton]
    omega
  rw [List.get?_append h2, List.get?_append h1, List.get?_append hj]

theorem warpStep_frame (ids : WarpIds) (s : Store) (i : ℕ) (s2 : Store)
    (h : warpStep ids s i = some s2) (j : ℕ)
    (hx : j ≠ ids.xr) (hy : j ≠ ids.yr) (hz : j ≠ ids.zr) :
    s2.get? j = s.get? j ∧ s2.length = s.length := by
  rw [warpStep] at h
  obtain ⟨pt, hpt, h⟩ := Option.bind_eq_some.mp h
  obtain ⟨it2, hit2, h⟩ := Option.bind_eq_some.mp h
  obtain ⟨roll, hroll, h⟩ := Option.bind_eq_some.mp h
  obtain ⟨pitch, hpitch, h⟩ := Option.bind_eq_some.mp h
  obtain ⟨x, hx1, h⟩ := Option.bind_eq_some.mp h
  obtain ⟨y, hy1, h⟩ := Option.bind_eq_some.mp h
  obtain ⟨z, hz1, h⟩ := Option.bind_eq_some.mp h
  obtain ⟨mask, hmask, h⟩ := Option.bind_eq_some.mp h
  obtain ⟨rv, hrv, h⟩ := Option.bind_eq_some.mp h
  obtain ⟨pv, hpv, h⟩ := Option.bind_eq_some.mp h
  obtain ⟨xs, hxs, h⟩ := Option.bind_eq_some.mp h
  obtain ⟨ys, hys, h⟩ := Option.bind_eq_some.mp h
  obtain ⟨zs, hzs, h⟩ := Option.bind_eq_some.mp h
  obtain ⟨xr, hxr1, h⟩ := Option.bind_eq_some.mp h
  obtain ⟨yr, hyr1, h⟩ := Option.bind_eq_some.mp h
  obtain ⟨zr, hzr1, h⟩ := Option.bind_eq_some.mp h
  obtain ⟨xr2, hxr3, h⟩ := Option.bind_eq_some.mp h
  obtain ⟨yr2, hyr3, h⟩ := Option.bind_eq_some.mp h
  obtain ⟨zr2, hzr3, hfin⟩ := Option.map_eq_some'.mp h
  subst hfin
  simp only [Store.write]
  constructor
  · rw [List.get?_set_ne _ _ (Ne.symm hz), List.get?_set_ne _ _ (Ne.symm hy),
      List.get?_set_ne _ _ (Ne.symm hx)]
  · simp [List.length_set]

theorem warpLoop_frame (ids : WarpIds) :
    ∀ (l : List ℕ) (s s2 : Store), warpLoop ids s l = some s2 →
      ∀ j, j ≠ ids.xr → j ≠ ids.yr → j ≠ ids.zr → s2.get? j = s.get? j := by
  intro l
  induction l with
  | nil =>
    intro s s2 h j _ _ _
    obtain rfl := Option.some.inj h
    rfl
  | cons i rest ih =>
    intro s s2 h j h1 h2 h3
    rw [warpLoop, Option.bind_eq_some] at h
    obtain ⟨s1, hstep, hrest⟩ := h
    rw [ih s1 s2 hrest j h1 h2 h3]
    exact (warpStep_frame ids s i s1 hstep j h1 h2 h3).1

/-- C9: the coordinate transforms `rotate_cloud`, `warp_cloud` and
`sop_pop_cloud` never mutate any pre-existing array of the store — in
particular none of their input coordinate arrays: every array present
before the call reads back unchanged afterwards — and each returns its
results as newly allocated arrays (ids at or past the old store size). -/
theorem cloud_transforms_no_mutation :
    (∀ (xId yId zId rollId pitchId : ℕ) (mode : RotateMode) (s s' : Store)
        (a b c : ℕ),
        rotate_cloud xId yId zId rollId pitchId mode s = some (s', a, b, c) →
        (∀ j < s.length, s'.get? j = s.get? j) ∧
          s.length ≤ a ∧ s.length ≤ b ∧ s.length ≤ c)
    ∧ (∀ (ptId xId yId zId itId rollId pitchId : ℕ) (s s' : Store)
        (a b c : ℕ),
        warp_cloud ptId xId yId zId itId rollId pitchId s = some (s', a, b, c) →
        (∀ j < s.length, s'.get? j = s.get? j) ∧
          s.length ≤ a ∧ s.length ≤ b ∧ s.length ≤ c)
    ∧ (∀ (xId yId zId : ℕ) (mat : Matrix (Fin 4) (Fin 4) ℝ) (s s' : Store)
        (a b c : ℕ),
        sop_pop_cloud xId yId zId mat s = some (s', a, b, c) →
        (∀ j < s.length, s'.get? j = s.get? j) ∧
          s.length ≤ a ∧ s.length ≤ b ∧ s.length ≤ c) := by
  refine ⟨?_, ?_, ?_⟩
  · intro xId yId zId rollId pitchId mode s s' a b c h
    rw [rotate_cloud] at h
    obtain ⟨x, hx, h⟩ := Option.bind_eq_some.mp h
    obtain ⟨y, hy, h⟩ := Option.bind_eq_some.mp h
    obtain ⟨z, hz, h⟩ := Option.bind_eq_some.mp h
    obtain ⟨roll, hroll, h⟩ := Option.bind_eq_some.mp h
    obtain ⟨pitch, hpitch, h⟩ := Option.bind_eq_some.mp h
    obtain ⟨rv, hrv, h⟩ := Option.bind_eq_some.mp h
    obtain ⟨pv, hpv, h⟩ := Option.map_eq_some'.mp h
    simp only [Store.alloc, Prod.mk.injEq, List.length_append,
      List.length_singleton] at h
    obtain ⟨hs', ha, hb, hc⟩ := h
    subst hs'
    subst ha
    subst hb
    subst hc
    exact ⟨fun j hj => get?_append_three s _ _ _ hj,
      le_refl _, by omega, by omega⟩
  · intro ptId xId yId zId itId rollId pitchId s s' a b c h
    rw [warp_cloud] at h
    obtain ⟨x, hx, h⟩ := Option.bind_eq_some.mp h
    obtain ⟨it2, hit2, h⟩ := Option.bind_eq_some.mp h
    simp only [Store.alloc, List.length_append, List.length_singleton] at h
    obtain ⟨s4, hloop, h⟩ := Option.map_eq_some'.mp h
    simp only [Prod.mk.injEq] at h
    obtain ⟨hs', ha, hb, hc⟩ := h
    subst hs'
    subst ha
    subst hb
    subst hc
    refine ⟨?_, le_refl _, by omega, by omega⟩
    intro j hj
    rw [warpLoop_frame _ _ _ _ hloop j (show j ≠ s.length by omega)
      (show j ≠ s.length + 1 by omega) (show j ≠ s.length + 1 + 1 by omega)]
    exact get?_append_three s _ _ _ hj
  · intro xId yId zId mat s s' a b c h
    rw [sop_pop_cloud] at h
    obtain ⟨x, hx, h⟩ := Option.bind_eq_some.mp h
    obtain ⟨y, hy, h⟩ := Option.bind_eq_some.mp h
    obtain ⟨z, hz, h⟩ := Option.map_eq_some'.mp h
    simp only [Store.alloc, Prod.mk.injEq, List.length_append,
      List.length_singleton] at h
    obtain ⟨hs', ha, hb, hc⟩ := h
    subst hs'
    subst ha
    subst hb
    subst hc
    exact ⟨fun j hj => get?_append_three s _ _ _ hj,
      le_refl _, by omega, by omega⟩

theorem warpStep_none_of_singleton_it (ids : WarpIds) (s3 : Store)
    (a0 : ℝ) (ptv : List ℝ) (hit : s3.read ids.it = some [a0])
    (hpt : s3.read ids.pt = some ptv) :
    warpStep ids s3 0 = none := by
  rw [warpStep, hpt, Option.some_bind, hit, Option.some_bind]
  cases hr : s3.read ids.roll with
  | none => rfl
  | some roll =>
    rw [Option.some_bind]
    cases hp : s3.read ids.pitch with
    | none => rfl
    | some pitch =>
      rw [Option.some_bind]
      cases hx : s3.read ids.x with
      | none => rfl
      | some x =>
        rw [Option.some_bind]
        cases hy : s3.read ids.y with
        | none => rfl
        | some y =>
          rw [Option.some_bind]
          cases hz : s3.read ids.z with
          | none => rfl
          | some z =>
            rw [Option.some_bind,
              show maskFor [a0] 0 ptv = none from rfl]
            rfl

/-- C10: calling `warp_cloud` with an inclination time series of length
exactly 1 and a non-empty point array fails with an index-out-of-bounds
condition (the midpoint array is empty, yet the first bin's mask reads
`it_mid[0]`, a numpy `IndexError` modelled as `none`); it never returns a
rotated cloud. -/
theorem warp_cloud_singleton_it_fails
    (ptId xId yId zId itId rollId pitchId : ℕ) (s : Store)
    (itv ptv : List ℝ) (hit : s.read itId = some itv)
    (hit1 : itv.length = 1) (hpt : s.read ptId = some ptv)
    (hne : ptv ≠ []) :
    warp_cloud ptId xId yId zId itId rollId pitchId s = none := by
  obtain ⟨a0, rfl⟩ := List.length_eq_one.mp hit1
  rw [warp_cloud]
  cases hx : s.read xId with
  | none => rfl
  | some x =>
    rw [Option.some_bind, hit, Option.some_bind]
    simp only [Store.alloc, List.length_singleton]
    rw [show List.range 1 = [0] from rfl, warpLoop]
    have hitlt : itId < s.length := read_lt_length hit
    have hptlt : ptId < s.length := read_lt_length hpt
    have hit3 : Store.read
        (((s ++ [List.replicate x.length 0]) ++ [List.replicate x.length 0])
          ++ [List.replicate x.length 0]) itId = some [a0] := by
      rw [Store.read, get?_append_three s _ _ _ hitlt]
      exact hit
    have hpt3 : Store.read
        (((s ++ [List.replicate x.length 0]) ++ [List.replicate x.length 0])
          ++ [List.replicate x.length 0]) ptId = some ptv := by
      rw [Store.read, get?_append_three s _ _ _ hptlt]
      exact hpt
    rw [warpStep_none_of_singleton_it _ _ a0 ptv hit3 hpt3]
    rfl

/-- Witness for C10: a store holding a one-point cloud and a one-sample
inclination series, on which `warp_cloud` fails. -/
theorem warp_cloud_singleton_it_fails_witness :
    (Store.read ([[0], [], [], [], [5], [], []] : Store) 4 = some [5])
    ∧ (([5] : List ℝ).length = 1)
    ∧ (Store.read ([[0], [], [], [], [5], [], []] : Store) 0 = some [0])
    ∧ (([0] : List ℝ) ≠ [])
    ∧ warp_cloud 0 1 2 3 4 5 6 ([[0], [], [], [], [5], [], []] : Store) =
        none := by
  refine ⟨rfl, rfl, rfl, List.cons_ne_nil 0 [], ?_⟩
  exact warp_cloud_singleton_it_fails 0 1 2 3 4 5 6 _ [5] [0] rfl rfl rfl
    (List.cons_ne_nil 0 [])

/-- Witness for C9: all three transforms applied to concrete stores, with
the frame property checked on one input array each and the freshness of the
result ids. -/
theorem cloud_transforms_no_mutation_witness :
    (rotate_cloud 0 1 2 3 4 RotateMode.mean
        ([[], [], [], [0, 0], [0, 0]] : Store) =
      some (([[], [], [], [0, 0], [0, 0], [], [], []] : Store), 5, 6, 7))
    ∧ (([[], [], [], [0, 0], [0, 0], [], [], []] : Store).get? 3 =
        ([[], [], [], [0, 0], [0, 0]] : Store).get? 3 ∧ 5 ≤ 5)
    ∧ (warp_cloud 0 1 2 3 4 5 6
        ([[], [], [], [], [0, 1], [0, 0], [0, 0]] : Store) =
      some (([[], [], [], [], [0, 1], [0, 0], [0, 0], [], [], []] : Store),
        7, 8, 9))
    ∧ (([[], [], [], [], [0, 1], [0, 0], [0, 0], [], [], []] : Store).get? 4 =
        ([[], [], [], [], [0, 1], [0, 0], [0, 0]] : Store).get? 4 ∧ 7 ≤ 7)
    ∧ (sop_pop_cloud 0 1 2 (0 : Matrix (Fin 4) (Fin 4) ℝ)
        ([[], [], []] : Store) =
      some (([[], [], [], [], [], []] : Store), 3, 4, 5))
    ∧ (([[], [], [], [], [], []] : Store).get? 0 =
        ([[], [], []] : Store).get? 0 ∧ 3 ≤ 3) := by
  have hR : rotate_cloud 0 1 2 3 4 RotateMode.mean
      ([[], [], [], [0, 0], [0, 0]] : Store) =
      some (([[], [], [], [0, 0], [0, 0], [], [], []] : Store), 5, 6, 7) := rfl
  have hW : warp_cloud 0 1 2 3 4 5 6
      ([[], [], [], [], [0, 1], [0, 0], [0, 0]] : Store) =
      some (([[], [], [], [], [0, 1], [0, 0], [0, 0], [], [], []] : Store),
        7, 8, 9) := rfl
  have hS : sop_pop_cloud 0 1 2 (0 : Matrix (Fin 4) (Fin 4) ℝ)
      ([[], [], []] : Store) =
      some (([[], [], [], [], [], []] : Store), 3, 4, 5) := rfl
  have hRf := cloud_transforms_no_mutation.1 0 1 2 3 4 RotateMode.mean
    _ _ _ _ _ hR
  have hWf := cloud_transforms_no_mutation.2.1 0 1 2 3 4 5 6 _ _ _ _ _ hW
  have hSf := cloud_transforms_no_mutation.2.2 0 1 2
    (0 : Matrix (Fin 4) (Fin 4) ℝ) _ _ _ _ _ hS
  exact ⟨hR, ⟨hRf.1 3 (by norm_num), hRf.2.1⟩,
    hW, ⟨hWf.1 4 (by norm_num), hWf.2.1⟩,
    hS, ⟨hSf.1 0 (by norm_num), hSf.2.1⟩⟩
